import Mathlib

/-!
Verification of the sync-gateway change-cache core against its specification.

The Go sources embedded here:
  * `db/sequence_id.go` — the SequenceID codec (integer path) and comparator;
  * `db/change_cache.go` — the changeCache coordinator, the pending heap,
    and the SkippedSequenceList.

Machine integers (`uint64`) are modelled as `Nat`; the `strconv.ParseUint`
64-bit overflow check is modelled explicitly as a `< 2^64` bound.  Strings
are handled at the `List Char` level with `String` wrappers.  Wall-clock
values (`time.Time` / `time.Duration`) are modelled as `Nat` ticks.
-/

namespace SyncGateway

/-! ## Decimal digits: embedding of `strconv.FormatUint(v, 10)` and
`strconv.ParseUint(s, 10, 64)` -/

/-- One decimal digit character, as produced by `strconv.FormatUint`. -/
def digitChar : Nat → Char
  | 0 => '0' | 1 => '1' | 2 => '2' | 3 => '3' | 4 => '4'
  | 5 => '5' | 6 => '6' | 7 => '7' | 8 => '8' | _ => '9'

/-- Decimal digit list of `n`, most significant first; fuel-structured so the
kernel can evaluate it. -/
def natDigitsAux : Nat → Nat → List Char
  | 0, _ => []
  | fuel + 1, n =>
    if n < 10 then [digitChar n]
    else natDigitsAux fuel (n / 10) ++ [digitChar (n % 10)]

/-- Embedding of `strconv.FormatUint(n, 10)` as a character list. -/
def natDigits (n : Nat) : List Char := natDigitsAux (n + 1) n

/-- Numeric value of a decimal digit character, `none` for a non-digit.
Mirrors the per-character check inside `strconv.ParseUint` (base 10). -/
def digitVal (c : Char) : Option Nat :=
  if 48 ≤ c.toNat ∧ c.toNat ≤ 57 then some (c.toNat - 48) else none

/-- Accumulating decimal parse of a character list; fails on any non-digit. -/
def parseDigitsAux (acc : Nat) : List Char → Option Nat
  | [] => some acc
  | c :: rest =>
    match digitVal c with
    | some d => parseDigitsAux (acc * 10 + d) rest
    | none => none

/-- Embedding of `strconv.ParseUint(s, 10, 64)`: requires a nonempty all-digit
string whose value fits in 64 bits. -/
def parseUint64 (cs : List Char) : Option Nat :=
  if cs = [] then none
  else
    match parseDigitsAux 0 cs with
    | some v => if v < 2 ^ 64 then some v else none
    | none => none

theorem digitVal_digitChar {d : Nat} (h : d < 10) : digitVal (digitChar d) = some d := by
  interval_cases d <;> decide

theorem digitChar_ne_colon {d : Nat} (h : d < 10) : digitChar d ≠ ':' := by
  interval_cases d <;> decide

theorem natDigitsAux_eq (fuel n : Nat) (h : n < fuel) :
    natDigitsAux fuel n =
      (if n < 10 then [digitChar n] else natDigitsAux (fuel - 1) (n / 10) ++ [digitChar (n % 10)]) := by
  cases fuel with
  | zero => omega
  | succ f => rfl

/-- The digit list is fuel-irrelevant once the fuel exceeds the argument. -/
theorem natDigitsAux_fuel : ∀ {fuel fuel' n : Nat}, n < fuel → n < fuel' →
    natDigitsAux fuel n = natDigitsAux fuel' n := by
  intro fuel
  induction fuel using Nat.strong_induction_on with
  | _ fuel ih =>
    intro fuel' n h h'
    rw [natDigitsAux_eq fuel n h, natDigitsAux_eq fuel' n h']
    by_cases h10 : n < 10
    · simp [h10]
    · simp only [h10, if_false]
      have hd : n / 10 < n := Nat.div_lt_self (by omega) (by omega)
      rw [@ih (fuel - 1) (by omega) (fuel' - 1) (n / 10) (by omega) (by omega)]

theorem natDigits_lt10 {n : Nat} (h : n < 10) : natDigits n = [digitChar n] := by
  unfold natDigits
  rw [natDigitsAux_eq _ _ (by omega)]
  simp [h]

theorem natDigits_ge10 {n : Nat} (h : 10 ≤ n) :
    natDigits n = natDigits (n / 10) ++ [digitChar (n % 10)] := by
  have hd : n / 10 < n := Nat.div_lt_self (by omega) (by omega)
  unfold natDigits
  rw [natDigitsAux_eq (n + 1) n (by omega)]
  simp only [show ¬ n < 10 by omega, if_false, Nat.add_sub_cancel]
  congr 1
  exact natDigitsAux_fuel (by omega) (by omega)

theorem natDigits_ne_nil (n : Nat) : natDigits n ≠ [] := by
  by_cases h : n < 10
  · rw [natDigits_lt10 h]; simp
  · rw [natDigits_ge10 (by omega)]; simp

theorem colon_not_mem_natDigits (n : Nat) : ':' ∉ natDigits n := by
  induction n using Nat.strong_induction_on with
  | _ n ih =>
    by_cases h : n < 10
    · rw [natDigits_lt10 h]
      simp [(digitChar_ne_colon h).symm]
    · rw [natDigits_ge10 (by omega)]
      have hd : n / 10 < n := Nat.div_lt_self (by omega) (by omega)
      have hm : n % 10 < 10 := Nat.mod_lt _ (by omega)
      simp only [List.mem_append, List.mem_singleton]
      push_neg
      exact ⟨ih _ hd, (digitChar_ne_colon hm).symm⟩

theorem parseDigitsAux_append (acc : Nat) (xs ys : List Char) :
    parseDigitsAux acc (xs ++ ys) =
      (parseDigitsAux acc xs).bind (fun a => parseDigitsAux a ys) := by
  induction xs generalizing acc with
  | nil => rfl
  | cons c rest ih =>
    simp only [List.cons_append, parseDigitsAux]
    cases digitVal c with
    | none => rfl
    | some d => exact ih _

theorem bind_some_eq {α β : Type} (a : α) (f : α → Option β) :
    (some a).bind f = f a := rfl

theorem parseDigitsAux_natDigits (acc n : Nat) :
    parseDigitsAux acc (natDigits n) = some (acc * 10 ^ (natDigits n).length + n) := by
  induction n using Nat.strong_induction_on generalizing acc with
  | _ n ih =>
    by_cases h : n < 10
    · rw [natDigits_lt10 h]
      simp [parseDigitsAux, digitVal_digitChar h]
    · rw [natDigits_ge10 (by omega)]
      have hd : n / 10 < n := Nat.div_lt_self (by omega) (by omega)
      have hm : n % 10 < 10 := Nat.mod_lt _ (by omega)
      rw [parseDigitsAux_append, ih _ hd acc, bind_some_eq]
      simp only [parseDigitsAux, digitVal_digitChar hm]
      have key : (acc * 10 ^ (natDigits (n / 10)).length + n / 10) * 10 + n % 10 =
          acc * 10 ^ ((natDigits (n / 10)).length + 1) + n := by
        rw [pow_succ]
        have h10 : 10 * (n / 10) + n % 10 = n := Nat.div_add_mod n 10
        ring_nf
        omega
      rw [key]
      simp [List.length_append]

/-- Round trip: parsing the decimal form of `n < 2^64` yields `n`. -/
theorem parseUint64_natDigits {n : Nat} (h : n < 2 ^ 64) :
    parseUint64 (natDigits n) = some n := by
  have hne := natDigits_ne_nil n
  unfold parseUint64
  rw [if_neg hne, parseDigitsAux_natDigits 0 n]
  simp only [Nat.zero_mul, Nat.zero_add]
  show (if n < 2 ^ 64 then some n else none) = some n
  rw [if_pos h]

/-! ## `strings.Split(str, ":")` -/

/-- Embedding of Go `strings.Split(str, ":")` at the character-list level:
always returns at least one (possibly empty) component. -/
def splitOnColon : List Char → List (List Char)
  | [] => [[]]
  | c :: rest =>
    match splitOnColon rest with
    | [] => [[]]
    | g :: gs => if c = ':' then [] :: g :: gs else (c :: g) :: gs

theorem splitOnColon_ne_nil (cs : List Char) : splitOnColon cs ≠ [] := by
  cases cs with
  | nil => simp [splitOnColon]
  | cons c rest =>
    simp only [splitOnColon]
    match h : splitOnColon rest with
    | [] => simp
    | g :: gs => by_cases hc : c = ':' <;> simp [hc]

theorem splitOnColon_no_colon {cs : List Char} (h : ':' ∉ cs) :
    splitOnColon cs = [cs] := by
  induction cs with
  | nil => rfl
  | cons c rest ih =>
    have hc : c ≠ ':' := fun hc => h (by simp [hc])
    have hr : ':' ∉ rest := fun hr => h (by simp [hr])
    simp only [splitOnColon, ih hr]
    simp [hc]

theorem splitOnColon_append {a : List Char} (rest : List Char) (h : ':' ∉ a) :
    splitOnColon (a ++ ':' :: rest) = a :: splitOnColon rest := by
  induction a with
  | nil =>
    simp only [List.nil_append, splitOnColon]
    match hr : splitOnColon rest with
    | [] => exact absurd hr (splitOnColon_ne_nil rest)
    | g :: gs => simp
  | cons c a' ih =>
    have hc : c ≠ ':' := fun hc => h (by simp [hc])
    have ha : ':' ∉ a' := fun hr => h (by simp [hr])
    simp only [List.cons_append, splitOnColon, List.append_eq]
    rw [ih ha]
    simp [hc]

/-! ## SequenceID codec (`db/sequence_id.go`, integer path) -/

/-- `SequenceType` from `sequence_id.go`. -/
inductive SequenceType where
  | IntSequenceType
  | ClockSequenceType
deriving DecidableEq, Repr

export SequenceType (IntSequenceType ClockSequenceType)

/-- `SequenceID` from `sequence_id.go`, integer fields only.  The clock
fields (`Clock`, `TriggeredByClock`, `vbNo`) belong to the vector-clock path,
which the specification flags as dead code and excludes. -/
structure SequenceID where
  SeqType : SequenceType := IntSequenceType
  TriggeredBy : Nat := 0
  LowSeq : Nat := 0
  Seq : Nat := 0
deriving DecidableEq, Repr

/-- `SequenceID.SafeSequence` from `sequence_id.go`. -/
def SequenceID.SafeSequence (s : SequenceID) : Nat :=
  if s.LowSeq > 0 then s.LowSeq else s.Seq

/-- `SequenceID.Before` from `sequence_id.go`. -/
def SequenceID.Before (s s2 : SequenceID) : Bool :=
  if s.TriggeredBy = s2.TriggeredBy then
    decide (s.SafeSequence < s2.SafeSequence)
  else if s.TriggeredBy = 0 then
    decide (s.SafeSequence < s2.TriggeredBy)
  else if s2.TriggeredBy = 0 then
    decide (s.TriggeredBy ≤ s2.SafeSequence)
  else
    decide (s.TriggeredBy < s2.TriggeredBy)

/-- `SequenceID.intSeqToString` from `sequence_id.go`, at character-list level. -/
def SequenceID.intSeqToChars (s : SequenceID) : List Char :=
  if s.LowSeq > 0 ∧ s.LowSeq < s.Seq then
    if s.TriggeredBy > 0 then
      natDigits s.LowSeq ++ ':' :: (natDigits s.TriggeredBy ++ ':' :: natDigits s.Seq)
    else
      natDigits s.LowSeq ++ ':' :: ':' :: natDigits s.Seq
  else if s.TriggeredBy > 0 then
    natDigits s.TriggeredBy ++ ':' :: natDigits s.Seq
  else
    natDigits s.Seq

/-- `SequenceID.intSeqToString` from `sequence_id.go` (String wrapper). -/
def SequenceID.intSeqToString (s : SequenceID) : String :=
  String.mk s.intSeqToChars

/-- `ParseIntSequenceComponent` from `sequence_id.go`; `none` is the error case. -/
def ParseIntSequenceComponent (component : List Char) (allowEmpty : Bool) : Option Nat :=
  if allowEmpty ∧ component = [] then some 0
  else parseUint64 component

/-- The two error shapes `parseIntegerSequenceID` can return: the
`base.HTTPErrorf(400, "Invalid sequence")` error, or a raw
`strconv.ParseUint` error.  The 2- and 3-component branches of the source
exit through naked `return` statements when a component fails to parse,
bypassing the final `if err != nil { err = base.HTTPErrorf(400, ...) }`
conversion, so those failures surface the raw strconv error; only the
single-component failure and the more-than-three-components case reach the
conversion and become 400. -/
inductive SeqParseErr where
  | http400
  | strconvError
deriving DecidableEq, Repr

/-- `parseIntegerSequenceID` from `sequence_id.go`, at character-list level.
The sequential matches mirror the source's early returns: a component
failure in the 2- or 3-component branch is returned raw
(`SeqParseErr.strconvError`); the 1-component failure and the length
fallthrough flow to the final conversion and become `SeqParseErr.http400`. -/
def parseIntegerSequenceIDChars (cs : List Char) : Except SeqParseErr SequenceID :=
  if cs = [] then .ok {}
  else
    match splitOnColon cs with
    | [c0] =>
      match ParseIntSequenceComponent c0 false with
      | some v => .ok { SeqType := IntSequenceType, Seq := v }
      | none => .error .http400
    | [c0, c1] =>
      match ParseIntSequenceComponent c0 false with
      | none => .error .strconvError
      | some tb =>
        match ParseIntSequenceComponent c1 false with
        | none => .error .strconvError
        | some v => .ok { SeqType := IntSequenceType, TriggeredBy := tb, Seq := v }
    | [c0, c1, c2] =>
      match ParseIntSequenceComponent c0 false with
      | none => .error .strconvError
      | some lo =>
        match ParseIntSequenceComponent c1 true with
        | none => .error .strconvError
        | some tb =>
          match ParseIntSequenceComponent c2 false with
          | none => .error .strconvError
          | some v =>
            .ok { SeqType := IntSequenceType, TriggeredBy := tb, LowSeq := lo, Seq := v }
    | _ => .error .http400

/-- `parseIntegerSequenceID` (String wrapper). -/
def parseIntegerSequenceID (str : String) : Except SeqParseErr SequenceID :=
  parseIntegerSequenceIDChars str.toList

instance {ε α : Type} [DecidableEq ε] [DecidableEq α] : DecidableEq (Except ε α) := fun x y =>
  match x, y with
  | .ok a, .ok b =>
    if h : a = b then isTrue (by rw [h]) else isFalse (by intro hh; cases hh; exact h rfl)
  | .error e, .error f =>
    if h : e = f then isTrue (by rw [h]) else isFalse (by intro hh; cases hh; exact h rfl)
  | .ok _, .error _ => isFalse (by intro hh; cases hh)
  | .error _, .ok _ => isFalse (by intro hh; cases hh)

/-! ## changeCache data model (`db/change_cache.go`) -/

/-- `channels.LogEntry` — the fields the change-cache core reads.
`Channels` maps a channel name to an optional removal sequence
(`channels.ChannelRemoval.Seq`). -/
structure LogEntry where
  Sequence : Nat
  DocID : String := ""
  RevID : String := ""
  Channels : List (String × Option Nat) := []
  TimeReceived : Nat := 0
  Skipped : Bool := false
deriving DecidableEq, Repr

/-- Modelled from the spec: `channel_cache.go` is not under `src/`.  A channel
cache holds a sequence-ordered buffer of entries plus the late-sequence
queue. -/
structure channelCache where
  entries : List LogEntry := []
  lateSeqs : List LogEntry := []
deriving DecidableEq, Repr

/-- Ordered insert by `Sequence` (channel buffers are kept sorted). -/
def insertEntry (e : LogEntry) : List LogEntry → List LogEntry
  | [] => [e]
  | x :: xs => if e.Sequence < x.Sequence then e :: x :: xs else x :: insertEntry e xs

/-- Modelled from the spec: `channelCache.addToCache` inserts the entry into
the buffer in sequence order. -/
def channelCache.addToCache (cache : channelCache) (change : LogEntry) : channelCache :=
  { cache with entries := insertEntry change cache.entries }

/-- Modelled from the spec: `channelCache.AddLateSequence` appends to the
late-sequence queue. -/
def channelCache.AddLateSequence (cache : channelCache) (change : LogEntry) : channelCache :=
  { cache with lateSeqs := cache.lateSeqs ++ [change] }

/-- Modelled from the spec: `channelCache.pruneCache` drops entries older than
the configured max age; it never touches coordinator state. -/
def channelCache.pruneCache (cache : channelCache) (now maxAge : Nat) : channelCache :=
  { cache with entries := cache.entries.filter (fun e => now - e.TimeReceived ≤ maxAge) }

/-- `SkippedSequence` from `change_cache.go`. -/
structure SkippedSequence where
  seq : Nat
  timeAdded : Nat
deriving DecidableEq, Repr

/-- `SkippedSequenceList` from `change_cache.go`: the ordered list; the
auxiliary `skippedMap` is the by-`seq` index and is represented implicitly
(lookups search the list for the unique element with that `seq`). -/
abbrev SkippedSequenceList := List SkippedSequence

namespace SkippedSequenceList

/-- `SkippedSequenceList.Push`: append only when the list is empty or the new
sequence exceeds the tail; `none` models the returned error (list unchanged). -/
def Push (l : SkippedSequenceList) (x : SkippedSequence) : Option SkippedSequenceList :=
  match l.getLast? with
  | none => some (l ++ [x])
  | some lastSkipped => if lastSkipped.seq < x.seq then some (l ++ [x]) else none

/-- `SkippedSequenceList.Contains`. -/
def Contains (l : SkippedSequenceList) (x : Nat) : Bool :=
  l.any (fun e => e.seq = x)

/-- `SkippedSequenceList.Remove`: remove the element indexed by `x`;
`none` models the `Value not found` error (list unchanged). -/
def Remove (l : SkippedSequenceList) (x : Nat) : Option SkippedSequenceList :=
  if l.any (fun e => e.seq = x) then some (l.filter (fun e => e.seq ≠ x)) else none

/-- `SkippedSequenceList.getOldest`. -/
def getOldest (l : SkippedSequenceList) : Nat :=
  match l with
  | [] => 0
  | e :: _ => e.seq

end SkippedSequenceList

/-- `changeCache.PushSkipped` pushes `{seq, now}` and ignores a push error. -/
def pushSkipped (l : SkippedSequenceList) (sequence now : Nat) : SkippedSequenceList :=
  match l.Push ⟨sequence, now⟩ with
  | some l2 => l2
  | none => l

/-- `changeCache.RemoveSkipped` with the error ignored (as in `processEntry`). -/
def removeSkipped (l : SkippedSequenceList) (sequence : Nat) : SkippedSequenceList :=
  match l.Remove sequence with
  | some l2 => l2
  | none => l

/-- `CacheOptions` (durations in ticks). -/
structure CacheOptions where
  CachePendingSeqMaxWait : Nat := 5000
  CachePendingSeqMaxNum : Nat := 10000
  CacheSkippedSeqMaxWait : Nat := 3600000
deriving DecidableEq, Repr

/-- `changeCache` coordinator state.  `pendingLogs` is the `container/heap`
min-heap keyed by `Sequence`; it is modelled as a sequence-sorted list whose
head is the heap minimum (the code only reads the minimum, pops the minimum,
and takes the length).  `receivedSeqs` is the duplicate-suppression set. -/
structure changeCache where
  logsDisabled : Bool := false
  nextSequence : Nat := 0
  initialSequence : Nat := 0
  receivedSeqs : List Nat := []
  pendingLogs : List LogEntry := []
  channelCaches : List (String × channelCache) := []
  skippedSeqs : SkippedSequenceList := []
  options : CacheOptions := {}
deriving DecidableEq, Repr

/-- `heap.Push` on the sequence-keyed min-heap: ordered insert. -/
def insertPending (e : LogEntry) : List LogEntry → List LogEntry
  | [] => [e]
  | x :: xs => if e.Sequence < x.Sequence then e :: x :: xs else x :: insertPending e xs

/-- `changeCache._getChannelCache` + mutation: update the named channel cache,
creating it on first access as the source does. -/
def updateChannel (m : List (String × channelCache)) (name : String)
    (f : channelCache → channelCache) : List (String × channelCache) :=
  match m with
  | [] => [(name, f {})]
  | (k, v) :: rest => if k = name then (k, f v) :: rest else (k, v) :: updateChannel rest name f

/-- One channel insertion inside `changeCache._addToCache`: add to the
channel's buffer and, when the entry is a late arrival, to its late queue. -/
def addEntryToChannel (c : changeCache) (change : LogEntry) (channelName : String) :
    changeCache :=
  { c with channelCaches := updateChannel c.channelCaches channelName (fun cache =>
      let cache := cache.addToCache change
      if change.Skipped then cache.AddLateSequence change else cache) }

/-- One iteration of the channel fan-out loop in `changeCache._addToCache`:
the entry goes to the channel when there is no removal or the removal is at
this sequence. -/
def addToCacheStep (change : LogEntry) (acc : changeCache × List String)
    (p : String × Option Nat) : changeCache × List String :=
  if p.2 = none ∨ p.2 = some change.Sequence then
    (addEntryToChannel acc.1 change p.1, acc.2 ++ [p.1])
  else acc

/-- `changeCache._addToCache`: advance `nextSequence` past the entry, exit for
placeholders, otherwise fan out to the entry's channels (where the removal is
absent or at this sequence) and to the `*` channel (`EnableStarChannelLog` is
`true` in the source).  Returns the affected channel names. -/
def changeCache._addToCache (c : changeCache) (change : LogEntry) :
    changeCache × List String :=
  let c1 := if change.Sequence ≥ c.nextSequence
    then { c with nextSequence := change.Sequence + 1 } else c
  if change.DocID = "" then (c1, [])
  else
    let folded := change.Channels.foldl (addToCacheStep change) (c1, [])
    (addEntryToChannel folded.1 change "*", folded.2 ++ ["*"])

/-- The loop body of `changeCache._addPendingLogs`, with explicit fuel (the
Go loop's termination is by progress of `nextSequence` toward the heap head
or by popping; the wrapper below supplies sufficient fuel). -/
def changeCache._addPendingLogsFuel (now : Nat) : Nat → changeCache → changeCache × List String
  | 0, c => (c, [])
  | fuel + 1, c =>
    match c.pendingLogs with
    | [] => (c, [])
    | change :: rest =>
      if change.Sequence = c.nextSequence then
        let r1 := changeCache._addToCache { c with pendingLogs := rest } change
        let r2 := changeCache._addPendingLogsFuel now fuel r1.1
        (r2.1, r1.2 ++ r2.2)
      else if rest.length + 1 > c.options.CachePendingSeqMaxNum ∨
          now - change.TimeReceived ≥ c.options.CachePendingSeqMaxWait then
        changeCache._addPendingLogsFuel now fuel
          { c with skippedSeqs := pushSkipped c.skippedSeqs c.nextSequence now,
                   nextSequence := c.nextSequence + 1 }
      else (c, [])

/-- Largest sequence in the pending heap (for the fuel bound). -/
def pendingMaxSeq (P : List LogEntry) : Nat :=
  P.foldl (fun m e => max m e.Sequence) 0

/-- `changeCache._addPendingLogs` with fuel that covers every skip
(`nextSequence` can only climb to the heap head) and every pop. -/
def changeCache._addPendingLogs (c : changeCache) (now : Nat) : changeCache × List String :=
  changeCache._addPendingLogsFuel now
    (c.pendingLogs.length + pendingMaxSeq c.pendingLogs + 1) c

/-- `changeCache.processEntry`: duplicate suppression, then the three-way
sequence classification (expected / future / out-of-order past). -/
def changeCache.processEntry (c : changeCache) (now : Nat) (change : LogEntry) :
    changeCache × List String :=
  if c.logsDisabled then (c, [])
  else
    let sequence := change.Sequence
    if sequence ∈ c.receivedSeqs then (c, [])
    else
      let c := { c with receivedSeqs := c.receivedSeqs ++ [sequence] }
      if sequence = c.nextSequence ∨ c.nextSequence = 0 then
        let r1 := c._addToCache change
        let r2 := r1.1._addPendingLogs now
        (r2.1, r1.2 ++ r2.2)
      else if sequence > c.nextSequence then
        let c := { c with pendingLogs := insertPending change c.pendingLogs }
        if c.pendingLogs.length > c.options.CachePendingSeqMaxNum then
          c._addPendingLogs now
        else (c, [])
      else if sequence > c.initialSequence then
        let change := if c.skippedSeqs.Contains sequence
          then { change with Skipped := true } else change
        let r := c._addToCache change
        ({ r.1 with skippedSeqs := removeSkipped r.1.skippedSeqs sequence }, r.2)
      else (c, [])

/-- `changeCache.releaseUnusedSequence`: a placeholder entry through
`processEntry`. -/
def changeCache.releaseUnusedSequence (c : changeCache) (now sequence : Nat) :
    changeCache × List String :=
  c.processEntry now { Sequence := sequence, TimeReceived := now }

/-- Submit each sequence in the list through `releaseUnusedSequence`
(`processEntry` on a placeholder entry), keeping the resulting state. -/
def changeCache.releaseAll (c : changeCache) (now : Nat) (seqs : List Nat) : changeCache :=
  seqs.foldl (fun st seq => (st.releaseUnusedSequence now seq).1) c

/-- `changeCache.processUnusedSequenceRange`: the doc key must split on `:`
into exactly four components, with the inclusive bounds in the third and
fourth; otherwise the notification is silently dropped. -/
def changeCache.processUnusedSequenceRange (c : changeCache) (now : Nat)
    (docID : String) : changeCache :=
  match splitOnColon docID.toList with
  | [_, _, fromChars, toChars] =>
    match parseUint64 fromChars, parseUint64 toChars with
    | some fromSequence, some toSequence =>
      c.releaseAll now (List.range' fromSequence (toSequence + 1 - fromSequence))
    | _, _ => c
  | _ => c

/-- `changeCache.LastSequence`. -/
def changeCache.LastSequence (c : changeCache) : Nat :=
  c.nextSequence - 1

/-- `changeCache.Clear` (success path): reset `initialSequence` from the
context's last sequence, empty the channel caches and the pending heap, and —
as the source comment stresses — leave `nextSequence` untouched. -/
def changeCache.Clear (c : changeCache) (lastSequence : Nat) : changeCache :=
  { c with initialSequence := lastSequence, channelCaches := [], pendingLogs := [] }

/-- `changeCache.CleanUp`: flush overdue pending entries, then prune every
channel cache. -/
def changeCache.CleanUp (c : changeCache) (now maxAge : Nat) : changeCache :=
  let r := c._addPendingLogs now
  { r.1 with channelCaches := r.1.channelCaches.map (fun p => (p.1, p.2.pruneCache now maxAge)) }

/-! ## Codec lemmas and claims C1, C2, C5, C6, C10 -/

theorem splitOnColon_colon_cons (cs : List Char) :
    splitOnColon (':' :: cs) = [] :: splitOnColon cs := by
  simp only [splitOnColon]
  match h : splitOnColon cs with
  | [] => exact absurd h (splitOnColon_ne_nil cs)
  | g :: gs => simp

theorem ParseIntSequenceComponent_false (cs : List Char) :
    ParseIntSequenceComponent cs false = parseUint64 cs := by
  simp [ParseIntSequenceComponent]

theorem ParseIntSequenceComponent_nil_true :
    ParseIntSequenceComponent [] true = some 0 := by
  simp [ParseIntSequenceComponent]

theorem ParseIntSequenceComponent_true_ne_nil {cs : List Char} (h : cs ≠ []) :
    ParseIntSequenceComponent cs true = parseUint64 cs := by
  simp [ParseIntSequenceComponent, h]

theorem ParseIntSequenceComponent_digits (allowEmpty : Bool) {n : Nat} (h : n < 2 ^ 64) :
    ParseIntSequenceComponent (natDigits n) allowEmpty = some n := by
  unfold ParseIntSequenceComponent
  rw [if_neg (by simp [natDigits_ne_nil n])]
  exact parseUint64_natDigits h

/-- C1 (counterexample): the spec's scenario asserts `y.Before(x) == false`
for `x = {seq:10}`, `y = {triggeredBy:8, seq:20}`, but the comparator places
the triggered side at its trigger position `8 ≤ 10`, so `y.Before(x)` is
`true`. -/
theorem C1_counterexample :
    ¬ (SequenceID.Before { TriggeredBy := 8, Seq := 20 } { Seq := 10 } = false) := by
  decide

/-- C1 (amended): for `x = {seq:10}` and `y = {triggeredBy:8, seq:20}`,
`y.Before(x) == true`, and `x.Before(y) == true` iff `x.seq < y.triggeredBy`;
with `x.seq = 10` and `y.triggeredBy = 8`, `x.Before(y) == false`. -/
theorem C1_retroactive_grant_ordering :
    SequenceID.Before { TriggeredBy := 8, Seq := 20 } { Seq := 10 } = true ∧
    (SequenceID.Before { Seq := 10 } { TriggeredBy := 8, Seq := 20 } = true ↔
      ({ Seq := 10 } : SequenceID).Seq <
        ({ TriggeredBy := 8, Seq := 20 } : SequenceID).TriggeredBy) ∧
    SequenceID.Before { Seq := 10 } { TriggeredBy := 8, Seq := 20 } = false := by
  refine ⟨by decide, ?_, by decide⟩
  decide

/-- C10: parsing the empty string succeeds with the zero-value `SequenceID`
and no error. -/
theorem C10_parse_empty_string :
    parseIntegerSequenceID "" =
      .ok { SeqType := IntSequenceType, TriggeredBy := 0, LowSeq := 0, Seq := 0 } := by
  decide

/-- C2 (counterexample): for the well-typed integer SequenceID
`{lowSeq:5, seq:3}` (a value that does occur, when previously skipped
sequences are sent), encoding ignores `lowSeq`, so the parse of the encoding
is `{seq:3}`, not the original. -/
theorem C2_counterexample :
    parseIntegerSequenceID (SequenceID.intSeqToString { LowSeq := 5, Seq := 3 }) ≠
      .ok { LowSeq := 5, Seq := 3 } := by
  decide

/-- C2 (amended): for every integer SequenceID whose `lowSeq` is zero or less
than `seq` (the encode-faithful range; `lowSeq ≥ seq` is dropped on encode)
and whose fields fit in `uint64`, parsing the formatted string gives the
SequenceID back with no error. -/
theorem C2_roundtrip (s : SequenceID) (hty : s.SeqType = IntSequenceType)
    (hlow : s.LowSeq = 0 ∨ s.LowSeq < s.Seq)
    (htb : s.TriggeredBy < 2 ^ 64) (hlo : s.LowSeq < 2 ^ 64) (hsq : s.Seq < 2 ^ 64) :
    parseIntegerSequenceID s.intSeqToString = .ok s := by
  obtain ⟨ty, tb, lo, sq⟩ := s
  simp only at hty htb hlo hsq hlow
  subst hty
  show parseIntegerSequenceIDChars
      (SequenceID.intSeqToChars ⟨IntSequenceType, tb, lo, sq⟩) = _
  unfold SequenceID.intSeqToChars
  simp only
  by_cases hc : lo > 0 ∧ lo < sq
  · rw [if_pos hc]
    by_cases ht : tb > 0
    · rw [if_pos ht]
      unfold parseIntegerSequenceIDChars
      rw [if_neg (by simp), splitOnColon_append _ (colon_not_mem_natDigits lo),
        splitOnColon_append _ (colon_not_mem_natDigits tb),
        splitOnColon_no_colon (colon_not_mem_natDigits sq)]
      simp [ParseIntSequenceComponent_digits _ hlo, ParseIntSequenceComponent_digits _ htb,
        ParseIntSequenceComponent_digits _ hsq]
    · rw [if_neg ht]
      unfold parseIntegerSequenceIDChars
      rw [if_neg (by simp), splitOnColon_append _ (colon_not_mem_natDigits lo),
        splitOnColon_colon_cons, splitOnColon_no_colon (colon_not_mem_natDigits sq)]
      have htb0 : tb = 0 := by omega
      subst htb0
      simp [ParseIntSequenceComponent_digits _ hlo, ParseIntSequenceComponent_nil_true,
        ParseIntSequenceComponent_digits _ hsq]
  · rw [if_neg hc]
    have hlo0 : lo = 0 := by
      rcases hlow with h | h
      · exact h
      · by_contra hne
        exact hc ⟨by omega, h⟩
    subst hlo0
    by_cases ht : tb > 0
    · rw [if_pos ht]
      unfold parseIntegerSequenceIDChars
      rw [if_neg (by simp), splitOnColon_append _ (colon_not_mem_natDigits tb),
        splitOnColon_no_colon (colon_not_mem_natDigits sq)]
      simp [ParseIntSequenceComponent_digits _ htb, ParseIntSequenceComponent_digits _ hsq]
    · rw [if_neg ht]
      have htb0 : tb = 0 := by omega
      subst htb0
      unfold parseIntegerSequenceIDChars
      rw [if_neg (natDigits_ne_nil sq), splitOnColon_no_colon (colon_not_mem_natDigits sq)]
      simp [ParseIntSequenceComponent_digits _ hsq]

/-- Witness for C2_roundtrip at `{lowSeq:2, triggeredBy:7, seq:9}`. -/
theorem C2_roundtrip_witness :
    parseIntegerSequenceID (SequenceID.intSeqToString
      { TriggeredBy := 7, LowSeq := 2, Seq := 9 }) =
      .ok { TriggeredBy := 7, LowSeq := 2, Seq := 9 } :=
  C2_roundtrip _ rfl (by decide) (by decide) (by decide) (by decide)

/-- C5: the integer SequenceID encoding is `seq` when `triggeredBy` and
`lowSeq` are zero, `triggeredBy:seq` when only `triggeredBy > 0`,
`lowSeq::seq` when only `lowSeq > 0`, `lowSeq:triggeredBy:seq` when both are
nonzero, and whenever `lowSeq ≥ seq` the `lowSeq` is ignored on encode. -/
theorem C5_wire_encoding (lo tb sq : Nat) :
    (tb = 0 ∧ lo = 0 →
      SequenceID.intSeqToChars { TriggeredBy := tb, LowSeq := lo, Seq := sq } =
        natDigits sq) ∧
    (0 < tb ∧ lo = 0 →
      SequenceID.intSeqToChars { TriggeredBy := tb, LowSeq := lo, Seq := sq } =
        natDigits tb ++ ':' :: natDigits sq) ∧
    (tb = 0 ∧ 0 < lo ∧ lo < sq →
      SequenceID.intSeqToChars { TriggeredBy := tb, LowSeq := lo, Seq := sq } =
        natDigits lo ++ ':' :: ':' :: natDigits sq) ∧
    (0 < tb ∧ 0 < lo ∧ lo < sq →
      SequenceID.intSeqToChars { TriggeredBy := tb, LowSeq := lo, Seq := sq } =
        natDigits lo ++ ':' :: natDigits tb ++ ':' :: natDigits sq) ∧
    (sq ≤ lo →
      SequenceID.intSeqToChars { TriggeredBy := tb, LowSeq := lo, Seq := sq } =
        SequenceID.intSeqToChars { TriggeredBy := tb, LowSeq := 0, Seq := sq }) := by
  refine ⟨fun h => ?_, fun h => ?_, fun h => ?_, fun h => ?_, fun h => ?_⟩
  · obtain ⟨h1, h2⟩ := h
    subst h1; subst h2
    simp [SequenceID.intSeqToChars]
  · obtain ⟨h1, h2⟩ := h
    subst h2
    simp [SequenceID.intSeqToChars, h1]
  · obtain ⟨h1, h2, h3⟩ := h
    subst h1
    simp [SequenceID.intSeqToChars, h2, h3]
  · obtain ⟨h1, h2, h3⟩ := h
    simp [SequenceID.intSeqToChars, h1, h2, h3]
  · simp [SequenceID.intSeqToChars, show ¬ (lo > 0 ∧ lo < sq) by omega]

/-- Witness for C5_wire_encoding at `lo = 2`, `tb = 7`, `sq = 9`. -/
theorem C5_wire_encoding_witness :
    SequenceID.intSeqToChars { TriggeredBy := 7, LowSeq := 2, Seq := 9 } =
      natDigits 2 ++ ':' :: natDigits 7 ++ ':' :: natDigits 9 :=
  (C5_wire_encoding 2 7 9).2.2.2.1 (by decide)

/-- Modelled from the spec: "Parsing recognizes exactly the three forms" —
`seq`, `triggeredBy:seq`, and `lowSeq:triggeredBy:seq` with `triggeredBy`
optionally empty; a form is recognized when every mandatory component is a
valid `uint64` decimal. -/
def specRecognizedSequenceForm (str : String) : Bool :=
  match splitOnColon str.toList with
  | [c0] => (parseUint64 c0).isSome
  | [c0, c1] => (parseUint64 c0).isSome && (parseUint64 c1).isSome
  | [c0, c1, c2] =>
    (parseUint64 c0).isSome && (decide (c1 = []) || (parseUint64 c1).isSome) &&
      (parseUint64 c2).isSome
  | _ => false

/-- C6 (counterexample): the claim fails twice — the empty string is not one
of the three recognized wire forms yet parses with no error, and the
unrecognized two-component input `"x:1"` errors with the raw strconv error
(the branch's naked `return` bypasses the HTTPErrorf(400) conversion), not a
400-category error. -/
theorem C6_counterexample :
    (specRecognizedSequenceForm "" = false ∧
      parseIntegerSequenceID "" = .ok { SeqType := IntSequenceType }) ∧
    (specRecognizedSequenceForm "x:1" = false ∧
      parseIntegerSequenceID "x:1" = .error SeqParseErr.strconvError) := by
  refine ⟨⟨by decide, by decide⟩, by decide, by decide⟩

/-- C6 (amended): for every *nonempty* input string that is not one of the
three recognized wire forms, `parseIntegerSequenceID` returns an error: the
raw strconv error when the input has two or three colon-separated components
(those branches early-return past the 400 conversion), and the 400
`Invalid sequence` error otherwise (one component, or more than three). -/
theorem C6_unrecognized_form_error (str : String) (hne : str ≠ "")
    (hrec : specRecognizedSequenceForm str = false) :
    parseIntegerSequenceID str =
      .error (if (splitOnColon str.toList).length = 2 ∨
          (splitOnColon str.toList).length = 3
        then SeqParseErr.strconvError else SeqParseErr.http400) := by
  obtain ⟨data⟩ := str
  have hd : data ≠ [] := by
    intro h
    subst h
    exact hne rfl
  have hrec2 : (match splitOnColon data with
    | [c0] => (parseUint64 c0).isSome
    | [c0, c1] => (parseUint64 c0).isSome && (parseUint64 c1).isSome
    | [c0, c1, c2] =>
      (parseUint64 c0).isSome && (decide (c1 = []) || (parseUint64 c1).isSome) &&
        (parseUint64 c2).isSome
    | _ => false) = false := hrec
  show parseIntegerSequenceIDChars data =
    .error (if (splitOnColon data).length = 2 ∨ (splitOnColon data).length = 3
      then SeqParseErr.strconvError else SeqParseErr.http400)
  unfold parseIntegerSequenceIDChars
  rw [if_neg hd]
  cases hs : splitOnColon data with
  | nil => exact absurd hs (splitOnColon_ne_nil data)
  | cons c0 rest =>
    rw [hs] at hrec2
    cases rest with
    | nil =>
      cases hp0 : parseUint64 c0 with
      | none => simp [ParseIntSequenceComponent_false, hp0]
      | some v0 => simp [hp0] at hrec2
    | cons c1 rest2 =>
      cases rest2 with
      | nil =>
        cases hp0 : parseUint64 c0 with
        | none => simp [ParseIntSequenceComponent_false, hp0]
        | some v0 =>
          cases hp1 : parseUint64 c1 with
          | none => simp [ParseIntSequenceComponent_false, hp0, hp1]
          | some v1 => simp [hp0, hp1] at hrec2
      | cons c2 rest3 =>
        cases rest3 with
        | nil =>
          cases hp0 : parseUint64 c0 with
          | none => simp [ParseIntSequenceComponent_false, hp0]
          | some v0 =>
            by_cases h1 : c1 = []
            · subst h1
              cases hp2 : parseUint64 c2 with
              | none =>
                simp [ParseIntSequenceComponent_false, ParseIntSequenceComponent_nil_true,
                  hp0, hp2]
              | some v2 => simp [hp0, hp2] at hrec2
            · cases hp1 : parseUint64 c1 with
              | none =>
                simp [ParseIntSequenceComponent_false,
                  ParseIntSequenceComponent_true_ne_nil h1, hp0, hp1]
              | some v1 =>
                cases hp2 : parseUint64 c2 with
                | none =>
                  simp [ParseIntSequenceComponent_false,
                    ParseIntSequenceComponent_true_ne_nil h1, hp0, hp1, hp2]
                | some v2 => simp [hp0, hp1, hp2] at hrec2
        | cons c3 rest4 =>
          have hlen4 : ¬ ((c0 :: c1 :: c2 :: c3 :: rest4).length = 2 ∨
              (c0 :: c1 :: c2 :: c3 :: rest4).length = 3) := by
            simp only [List.length_cons]
            omega
          rw [if_neg hlen4]

/-- Witness for C6_unrecognized_form_error at the two-component input
`"x:1"`, whose error is the raw strconv error. -/
theorem C6_unrecognized_form_error_witness :
    parseIntegerSequenceID "x:1" =
      .error (if (splitOnColon (String.toList "x:1")).length = 2 ∨
          (splitOnColon (String.toList "x:1")).length = 3
        then SeqParseErr.strconvError else SeqParseErr.http400) :=
  C6_unrecognized_form_error "x:1" (by decide) (by decide)

/-! ## Structural lemmas about the coordinator operations -/

theorem foldl_addToCacheStep_core (change : LogEntry) (l : List (String × Option Nat)) :
    ∀ acc : changeCache × List String, ∃ m,
      (l.foldl (addToCacheStep change) acc).1 = { acc.1 with channelCaches := m } := by
  induction l with
  | nil => intro acc; exact ⟨acc.1.channelCaches, rfl⟩
  | cons p rest ih =>
    intro acc
    simp only [List.foldl_cons]
    obtain ⟨m, hm⟩ := ih (addToCacheStep change acc p)
    refine ⟨m, ?_⟩
    rw [hm]
    unfold addToCacheStep addEntryToChannel
    by_cases h : p.2 = none ∨ p.2 = some change.Sequence <;> simp [h]

/-- `_addToCache` only advances `nextSequence` and rewrites the channel-cache
map; every other coordinator field is untouched. -/
theorem addToCache_spec (c : changeCache) (e : LogEntry) :
    ∃ m : List (String × channelCache),
      (c._addToCache e).1 = { c with
        nextSequence := if e.Sequence ≥ c.nextSequence then e.Sequence + 1 else c.nextSequence,
        channelCaches := m } := by
  unfold changeCache._addToCache
  by_cases hdoc : e.DocID = ""
  · simp only [hdoc, if_true]
    by_cases hseq : e.Sequence ≥ c.nextSequence
    · exact ⟨c.channelCaches, by simp [hseq]⟩
    · exact ⟨c.channelCaches, by simp [hseq]⟩
  · simp only [hdoc, if_false]
    obtain ⟨m, hm⟩ := foldl_addToCacheStep_core e e.Channels
      (if e.Sequence ≥ c.nextSequence then { c with nextSequence := e.Sequence + 1 } else c, [])
    refine ⟨updateChannel m "*" (fun cache =>
      let cache := cache.addToCache e
      if e.Skipped then cache.AddLateSequence e else cache), ?_⟩
    simp only [addEntryToChannel, hm]
    by_cases hseq : e.Sequence ≥ c.nextSequence <;> simp [hseq]

theorem addToCache_proj (c : changeCache) (e : LogEntry) :
    (c._addToCache e).1.nextSequence =
      (if e.Sequence ≥ c.nextSequence then e.Sequence + 1 else c.nextSequence) ∧
    (c._addToCache e).1.pendingLogs = c.pendingLogs ∧
    (c._addToCache e).1.receivedSeqs = c.receivedSeqs ∧
    (c._addToCache e).1.skippedSeqs = c.skippedSeqs ∧
    (c._addToCache e).1.options = c.options ∧
    (c._addToCache e).1.logsDisabled = c.logsDisabled ∧
    (c._addToCache e).1.initialSequence = c.initialSequence := by
  obtain ⟨m, hm⟩ := addToCache_spec c e
  rw [hm]
  exact ⟨rfl, rfl, rfl, rfl, rfl, rfl, rfl⟩

theorem addToCache_next_ge (c : changeCache) (e : LogEntry) :
    c.nextSequence ≤ (c._addToCache e).1.nextSequence := by
  rw [(addToCache_proj c e).1]
  by_cases h : e.Sequence ≥ c.nextSequence
  · rw [if_pos h]
    omega
  · rw [if_neg h]

/-- `_addToCache` of a placeholder entry only advances the counter. -/
theorem addToCache_placeholder (c : changeCache) (e : LogEntry) (h : e.DocID = "") :
    c._addToCache e =
      (if e.Sequence ≥ c.nextSequence then { c with nextSequence := e.Sequence + 1 } else c,
       []) := by
  unfold changeCache._addToCache
  simp only [h, if_true]

theorem addPendingLogsFuel_next_ge (now : Nat) : ∀ (fuel : Nat) (c : changeCache),
    c.nextSequence ≤ (changeCache._addPendingLogsFuel now fuel c).1.nextSequence := by
  intro fuel
  induction fuel with
  | zero => intro c; exact le_refl _
  | succ f ih =>
    intro c
    rw [changeCache._addPendingLogsFuel]
    cases hp : c.pendingLogs with
    | nil => exact le_refl _
    | cons e rest =>
      by_cases h1 : e.Sequence = c.nextSequence
      · simp only [h1, if_true]
        have s1 : c.nextSequence ≤
            (changeCache._addToCache { c with pendingLogs := rest } e).1.nextSequence :=
          addToCache_next_ge { c with pendingLogs := rest } e
        exact le_trans s1 (ih _)
      · simp only [h1, if_false]
        by_cases h2 : rest.length + 1 > c.options.CachePendingSeqMaxNum ∨
            now - e.TimeReceived ≥ c.options.CachePendingSeqMaxWait
        · simp only [h2, if_true]
          have h3 := ih { c with
            pendingLogs := e :: rest,
            skippedSeqs := pushSkipped c.skippedSeqs c.nextSequence now,
            nextSequence := c.nextSequence + 1 }
          refine le_trans (Nat.le_succ _) ?_
          exact h3
        · simp only [h2, if_false]
          exact le_refl _

theorem addPendingLogs_next_ge (c : changeCache) (now : Nat) :
    c.nextSequence ≤ (c._addPendingLogs now).1.nextSequence :=
  addPendingLogsFuel_next_ge now _ c

theorem processEntry_next_ge (c : changeCache) (now : Nat) (change : LogEntry) :
    c.nextSequence ≤ (c.processEntry now change).1.nextSequence := by
  unfold changeCache.processEntry
  dsimp only
  by_cases hdis : c.logsDisabled = true
  · rw [if_pos hdis]
  · rw [if_neg hdis]
    by_cases hdup : change.Sequence ∈ c.receivedSeqs
    · rw [if_pos hdup]
    · rw [if_neg hdup]
      by_cases hnext : change.Sequence = c.nextSequence ∨ c.nextSequence = 0
      · rw [if_pos hnext]
        refine le_trans ?_ (addPendingLogs_next_ge _ now)
        refine le_trans ?_ (addToCache_next_ge _ change)
        exact le_rfl
      · rw [if_neg hnext]
        by_cases hgt : change.Sequence > c.nextSequence
        · rw [if_pos hgt]
          by_cases hover : (insertPending change c.pendingLogs).length >
              c.options.CachePendingSeqMaxNum
          · rw [if_pos hover]
            refine le_trans ?_ (addPendingLogs_next_ge _ now)
            exact le_rfl
          · rw [if_neg hover]
        · rw [if_neg hgt]
          by_cases hinit : change.Sequence > c.initialSequence
          · rw [if_pos hinit]
            refine le_trans ?_ (addToCache_next_ge _ _)
            exact le_rfl
          · rw [if_neg hinit]

/-- C9: across every modelled coordinator operation — `processEntry`,
`_addToCache`, `_addPendingLogs` (any fuel), `CleanUp`, `Clear` — the
`nextSequence` counter never decreases. -/
theorem C9_nextSequence_monotone :
    (∀ (c : changeCache) (now : Nat) (change : LogEntry),
      c.nextSequence ≤ (c.processEntry now change).1.nextSequence) ∧
    (∀ (c : changeCache) (change : LogEntry),
      c.nextSequence ≤ (c._addToCache change).1.nextSequence) ∧
    (∀ (now fuel : Nat) (c : changeCache),
      c.nextSequence ≤ (changeCache._addPendingLogsFuel now fuel c).1.nextSequence) ∧
    (∀ (c : changeCache) (now : Nat),
      c.nextSequence ≤ (c._addPendingLogs now).1.nextSequence) ∧
    (∀ (c : changeCache) (now maxAge : Nat),
      c.nextSequence ≤ (c.CleanUp now maxAge).nextSequence) ∧
    (∀ (c : changeCache) (lastSequence : Nat),
      c.nextSequence ≤ (c.Clear lastSequence).nextSequence) := by
  refine ⟨processEntry_next_ge, addToCache_next_ge,
    fun now fuel c => addPendingLogsFuel_next_ge now fuel c, addPendingLogs_next_ge,
    fun c now maxAge => ?_, fun c lastSequence => le_refl _⟩
  unfold changeCache.CleanUp
  exact addPendingLogs_next_ge c now

/-! ## Claim C7: duplicate submission is a silent drop -/

/-- Association-list lookup of a channel cache by name. -/
def lookupChannel (m : List (String × channelCache)) (name : String) : Option channelCache :=
  match m with
  | [] => none
  | (k, v) :: rest => if k = name then some v else lookupChannel rest name

/-- Number of entries with sequence `q` in channel `name`. -/
def countSeqInChannel (c : changeCache) (name : String) (q : Nat) : Nat :=
  match lookupChannel c.channelCaches name with
  | none => 0
  | some cache => (cache.entries.filter (fun e => e.Sequence = q)).length

theorem lookupChannel_updateChannel_same (m : List (String × channelCache)) (name : String)
    (f : channelCache → channelCache) :
    lookupChannel (updateChannel m name f) name =
      some (f ((lookupChannel m name).getD {})) := by
  induction m with
  | nil => simp [updateChannel, lookupChannel]
  | cons p rest ih =>
    obtain ⟨k, v⟩ := p
    by_cases h : k = name
    · subst h
      simp [updateChannel, lookupChannel]
    · simp [updateChannel, lookupChannel, h, ih]

theorem lookupChannel_updateChannel_other (m : List (String × channelCache))
    (name name' : String) (f : channelCache → channelCache) (h : name' ≠ name) :
    lookupChannel (updateChannel m name f) name' = lookupChannel m name' := by
  induction m with
  | nil => simp [updateChannel, lookupChannel, Ne.symm h]
  | cons p rest ih =>
    obtain ⟨k, v⟩ := p
    by_cases hk : k = name
    · subst hk
      simp [updateChannel, lookupChannel, Ne.symm h]
    · simp [updateChannel, lookupChannel, hk, ih]

theorem insertEntry_perm (e : LogEntry) (l : List LogEntry) :
    (insertEntry e l).Perm (e :: l) := by
  induction l with
  | nil => simp [insertEntry]
  | cons x xs ih =>
    unfold insertEntry
    by_cases h : e.Sequence < x.Sequence
    · simp [h]
    · simp only [h, if_false]
      exact (ih.cons x).trans (List.Perm.swap e x xs)

/-- Equation: `processEntry` on an already-received sequence returns the state
unchanged and the empty changed-channels set. -/
theorem processEntry_eq_dup (c : changeCache) (now : Nat) (change : LogEntry)
    (hdis : c.logsDisabled = false) (hdup : change.Sequence ∈ c.receivedSeqs) :
    c.processEntry now change = (c, []) := by
  unfold changeCache.processEntry
  rw [if_neg (by simp [hdis]), if_pos hdup]

/-- Equation: `processEntry` on the expected next sequence records it and runs
`_addToCache` followed by `_addPendingLogs`. -/
theorem processEntry_eq_expected (c : changeCache) (now : Nat) (change : LogEntry)
    (hdis : c.logsDisabled = false) (hdup : change.Sequence ∉ c.receivedSeqs)
    (hnext : change.Sequence = c.nextSequence ∨ c.nextSequence = 0) :
    c.processEntry now change =
      (let r1 := changeCache._addToCache
          { c with receivedSeqs := c.receivedSeqs ++ [change.Sequence] } change
       let r2 := r1.1._addPendingLogs now
       (r2.1, r1.2 ++ r2.2)) := by
  unfold changeCache.processEntry
  dsimp only
  rw [if_neg (by simp [hdis]), if_neg hdup, if_pos hnext]

/-- With an empty pending heap, `_addPendingLogs` is a no-op. -/
theorem addPendingLogs_nil (c : changeCache) (now : Nat) (h : c.pendingLogs = []) :
    c._addPendingLogs now = (c, []) := by
  unfold changeCache._addPendingLogs
  rw [h]
  show changeCache._addPendingLogsFuel now 1 c = (c, [])
  rw [changeCache._addPendingLogsFuel, h]

/-- `_addToCache` of a single-channel entry: advance the counter and insert
the entry into that channel's buffer and the `*` channel's buffer. -/
theorem addToCache_single_channel (c : changeCache) (change : LogEntry) (ch : String)
    (hdoc : ¬ change.DocID = "") (hch : change.Channels = [(ch, none)])
    (hskip : change.Skipped = false) (hseq : change.Sequence ≥ c.nextSequence) :
    c._addToCache change =
      ({ c with
          nextSequence := change.Sequence + 1,
          channelCaches := updateChannel
            (updateChannel c.channelCaches ch (fun cache => cache.addToCache change))
            "*" (fun cache => cache.addToCache change) },
       [ch, "*"]) := by
  unfold changeCache._addToCache
  dsimp only
  rw [if_pos hseq, if_neg hdoc, hch]
  simp [addToCacheStep, addEntryToChannel, hskip]

/-- C7: submitting the same sequence twice: after the first (expected-case)
call adds the entry, the second call is a silent drop — it returns the empty
changed-channels set and leaves the coordinator state (the whole record:
`nextSequence`, `pendingLogs`, channel caches, skipped list) unchanged — and
the two calls leave exactly one entry for that sequence in the channel. -/
theorem C7_duplicate_silent_drop (c : changeCache) (now now2 : Nat) (change : LogEntry)
    (ch : String)
    (hdis : c.logsDisabled = false)
    (hdup : change.Sequence ∉ c.receivedSeqs)
    (hnext : change.Sequence = c.nextSequence)
    (hpend : c.pendingLogs = [])
    (hch : change.Channels = [(ch, none)])
    (hstar : ch ≠ "*")
    (hdoc : ¬ change.DocID = "")
    (hskip : change.Skipped = false)
    (hcount : countSeqInChannel c ch change.Sequence = 0) :
    (c.processEntry now change).1.processEntry now2 change =
      ((c.processEntry now change).1, []) ∧
    countSeqInChannel (c.processEntry now change).1 ch change.Sequence = 1 := by
  have hmain : c.processEntry now change =
      ({ c with
          receivedSeqs := c.receivedSeqs ++ [change.Sequence],
          nextSequence := change.Sequence + 1,
          channelCaches := updateChannel
            (updateChannel c.channelCaches ch (fun cache => cache.addToCache change))
            "*" (fun cache => cache.addToCache change) },
       [ch, "*"]) := by
    rw [processEntry_eq_expected c now change hdis hdup (Or.inl hnext)]
    dsimp only
    rw [addToCache_single_channel _ change ch hdoc hch hskip (by simp [hnext])]
    dsimp only
    rw [addPendingLogs_nil _ now (by simp [hpend])]
    simp
  rw [hmain]
  dsimp only
  constructor
  · apply processEntry_eq_dup
    · simp [hdis]
    · simp
  · unfold countSeqInChannel
    rw [lookupChannel_updateChannel_other _ _ _ _ hstar,
      lookupChannel_updateChannel_same]
    dsimp only [channelCache.addToCache]
    have hperm := ((insertEntry_perm change
      (((lookupChannel c.channelCaches ch).getD {}).entries)).filter
        (fun e => decide (e.Sequence = change.Sequence))).length_eq
    rw [hperm]
    have hprev : (((lookupChannel c.channelCaches ch).getD {}).entries.filter
        (fun e => e.Sequence = change.Sequence)).length = 0 := by
      unfold countSeqInChannel at hcount
      cases hl : lookupChannel c.channelCaches ch with
      | none => simp [hl]
      | some cache => rw [hl] at hcount; simpa using hcount
    simp [List.filter_cons, hprev]

/-- Witness for C7 at a concrete cache and entry. -/
theorem C7_duplicate_silent_drop_witness :
    (changeCache.processEntry { nextSequence := 1 } 0
        { Sequence := 1, DocID := "doc1", Channels := [("A", none)] }).1.processEntry 5
        { Sequence := 1, DocID := "doc1", Channels := [("A", none)] } =
      ((changeCache.processEntry { nextSequence := 1 } 0
        { Sequence := 1, DocID := "doc1", Channels := [("A", none)] }).1, []) ∧
    countSeqInChannel (changeCache.processEntry { nextSequence := 1 } 0
        { Sequence := 1, DocID := "doc1", Channels := [("A", none)] }).1 "A" 1 = 1 :=
  C7_duplicate_silent_drop { nextSequence := 1 } 0 5
    { Sequence := 1, DocID := "doc1", Channels := [("A", none)] } "A"
    rfl (by decide) rfl rfl rfl (by decide) (by decide) rfl (by decide)

/-! ## Claim C8: the skipped-sequence registry stays strictly increasing -/

/-- One operation against the skipped-sequence registry: `PushSkipped` of a
sequence (stamped with the current clock, as `time.Now()` in the source) or a
`RemoveSkipped`. -/
inductive SkipOp where
  | push (seq : Nat)
  | remove (seq : Nat)
deriving DecidableEq, Repr

/-- The ordering the spec asserts between registry neighbours. -/
def SkippedLt (a b : SkippedSequence) : Prop :=
  a.seq < b.seq ∧ a.timeAdded < b.timeAdded

instance : DecidableRel SkippedLt := fun a b => by
  unfold SkippedLt
  infer_instance

/-- Apply one operation; the wall clock ticks monotonically between
operations. -/
def applySkipOp : SkippedSequenceList × Nat → SkipOp → SkippedSequenceList × Nat
  | (l, clock), .push q => (pushSkipped l q clock, clock + 1)
  | (l, clock), .remove q => (removeSkipped l q, clock + 1)

/-- Run a sequence of registry operations from the empty registry. -/
def runSkipOps (ops : List SkipOp) : SkippedSequenceList × Nat :=
  ops.foldl applySkipOp ([], 0)

/-- Boolean check: strictly increasing in both `seq` and `timeAdded`. -/
def strictlyIncB : SkippedSequenceList → Bool
  | [] => true
  | a :: rest =>
    rest.all (fun b => decide (SkippedLt a b)) && strictlyIncB rest

theorem strictlyIncB_iff (l : SkippedSequenceList) :
    strictlyIncB l = true ↔ l.Pairwise SkippedLt := by
  induction l with
  | nil => simp [strictlyIncB]
  | cons a rest ih =>
    simp [strictlyIncB, List.pairwise_cons, ih, List.all_eq_true, and_comm]

theorem pairwise_getLast {l : SkippedSequenceList} {e : SkippedSequence}
    (hp : l.Pairwise SkippedLt) (hl : l.getLast? = some e) :
    ∀ a ∈ l, a = e ∨ SkippedLt a e := by
  induction l with
  | nil => simp at hl
  | cons x xs ih =>
    intro a ha
    cases xs with
    | nil =>
      simp at hl ha
      subst hl; subst ha
      exact Or.inl rfl
    | cons y ys =>
      rw [List.getLast?_cons_cons] at hl
      have hp2 := (List.pairwise_cons.mp hp).2
      have hx := (List.pairwise_cons.mp hp).1
      rcases List.mem_cons.mp ha with h | h
      · subst h
        have he : e ∈ y :: ys := by
          obtain ⟨hne, heq⟩ := List.mem_getLast?_eq_getLast (Option.mem_def.mpr hl)
          rw [heq]
          exact List.getLast_mem hne
        exact Or.inr (hx e he)
      · exact ih hp2 hl a h

theorem Push_some_inv {l : SkippedSequenceList} {x : SkippedSequence}
    {l2 : SkippedSequenceList} (h : l.Push x = some l2) :
    l2 = l ++ [x] ∧ (l = [] ∨ ∃ e, l.getLast? = some e ∧ e.seq < x.seq) := by
  unfold SkippedSequenceList.Push at h
  cases hl : l.getLast? with
  | none =>
    rw [hl] at h
    refine ⟨by injection h with h2; exact h2.symm, Or.inl ?_⟩
    cases l with
    | nil => rfl
    | cons a as => simp [List.getLast?_cons] at hl
  | some e =>
    rw [hl] at h
    dsimp only at h
    by_cases he : e.seq < x.seq
    · rw [if_pos he] at h
      exact ⟨by injection h with h2; exact h2.symm, Or.inr ⟨e, rfl, he⟩⟩
    · rw [if_neg he] at h
      cases h

theorem skip_step_inv (l : SkippedSequenceList) (clock : Nat) (op : SkipOp)
    (hInv : l.Pairwise SkippedLt) (hclock : ∀ e ∈ l, e.timeAdded < clock) :
    (applySkipOp (l, clock) op).1.Pairwise SkippedLt ∧
    (∀ e ∈ (applySkipOp (l, clock) op).1,
      e.timeAdded < (applySkipOp (l, clock) op).2) := by
  cases op with
  | push q =>
    show (pushSkipped l q clock).Pairwise SkippedLt ∧
      ∀ e ∈ pushSkipped l q clock, e.timeAdded < clock + 1
    unfold pushSkipped
    cases hp : l.Push ⟨q, clock⟩ with
    | none =>
      exact ⟨hInv, fun e he => Nat.lt_succ_of_lt (hclock e he)⟩
    | some l2 =>
      obtain ⟨h2, hcond⟩ := Push_some_inv hp
      subst h2
      constructor
      · rw [List.pairwise_append]
        refine ⟨hInv, List.pairwise_singleton _ _, ?_⟩
        intro a ha b hb
        have hb2 : b = (⟨q, clock⟩ : SkippedSequence) := by simpa using hb
        subst hb2
        constructor
        · rcases hcond with h | ⟨e, he, helt⟩
          · subst h; simp at ha
          · rcases pairwise_getLast hInv he a ha with h | h
            · subst h; exact helt
            · exact lt_trans h.1 helt
        · exact hclock a ha
      · intro e he
        rcases List.mem_append.mp he with h | h
        · exact Nat.lt_succ_of_lt (hclock e h)
        · have : e = (⟨q, clock⟩ : SkippedSequence) := by simpa using h
          subst this
          exact Nat.lt_succ_self _
  | remove q =>
    show (removeSkipped l q).Pairwise SkippedLt ∧
      ∀ e ∈ removeSkipped l q, e.timeAdded < clock + 1
    unfold removeSkipped SkippedSequenceList.Remove
    by_cases hq : l.any (fun e => e.seq = q)
    · rw [if_pos hq]
      refine ⟨hInv.sublist (List.filter_sublist l), ?_⟩
      intro e he
      exact Nat.lt_succ_of_lt (hclock e (List.mem_of_mem_filter he))
    · rw [if_neg hq]
      exact ⟨hInv, fun e he => Nat.lt_succ_of_lt (hclock e he)⟩

theorem foldl_skip_inv (ops : List SkipOp) :
    ∀ (l : SkippedSequenceList) (clock : Nat), l.Pairwise SkippedLt →
      (∀ e ∈ l, e.timeAdded < clock) →
      (ops.foldl applySkipOp (l, clock)).1.Pairwise SkippedLt := by
  induction ops with
  | nil => intro l clock h _; exact h
  | cons op rest ih =>
    intro l clock hInv hclock
    rw [List.foldl_cons]
    obtain ⟨h1, h2⟩ := skip_step_inv l clock op hInv hclock
    have : applySkipOp (l, clock) op =
        ((applySkipOp (l, clock) op).1, (applySkipOp (l, clock) op).2) := rfl
    rw [this]
    exact ih _ _ h1 h2

/-- C8: every sequence of Push and Remove operations (with the wall clock
ticking forward) keeps the `SkippedSequenceList` strictly increasing in both
`sequence` and `timeAdded`; `Push` appends exactly when the new sequence is
strictly greater than the tail's, and otherwise errors with the list kept
unchanged by the caller. -/
theorem C8_skipped_list_strictly_increasing :
    (∀ ops : List SkipOp, strictlyIncB (runSkipOps ops).1 = true) ∧
    (∀ x : SkippedSequence, SkippedSequenceList.Push [] x = some [x]) ∧
    (∀ (l : SkippedSequenceList) (x e : SkippedSequence), l.getLast? = some e →
      (e.seq < x.seq → SkippedSequenceList.Push l x = some (l ++ [x])) ∧
      (¬ e.seq < x.seq → SkippedSequenceList.Push l x = none)) := by
  refine ⟨?_, ?_, ?_⟩
  · intro ops
    rw [strictlyIncB_iff]
    exact foldl_skip_inv ops [] 0 (List.Pairwise.nil) (by simp)
  · intro x
    rfl
  · intro l x e hl
    constructor
    · intro h
      unfold SkippedSequenceList.Push
      rw [hl]
      dsimp only
      rw [if_pos h]
    · intro h
      unfold SkippedSequenceList.Push
      rw [hl]
      dsimp only
      rw [if_neg h]

/-- Witness for C8: a concrete run stays strictly increasing, and a push of a
sequence below the tail errors. -/
theorem C8_skipped_list_strictly_increasing_witness :
    strictlyIncB (runSkipOps [.push 4, .push 9, .remove 4, .push 2]).1 = true ∧
    SkippedSequenceList.Push [⟨3, 0⟩] ⟨2, 5⟩ = none :=
  ⟨C8_skipped_list_strictly_increasing.1 [.push 4, .push 9, .remove 4, .push 2],
   (C8_skipped_list_strictly_increasing.2.2 [⟨3, 0⟩] ⟨2, 5⟩ ⟨3, 0⟩ rfl).2 (by decide)⟩

/-! ## Claim C4: the unused-sequence-range marker -/

/-- C4 (counterexample): a marker key of the spec's form
`unusedSeqs:from:5:to:7` splits into five colon components, so
`processUnusedSequenceRange` silently drops it: nothing advances and no
placeholder is produced, where the claim requires `nextSequence` to advance
by 3. -/
theorem C4_counterexample :
    changeCache.processUnusedSequenceRange { nextSequence := 5 } 0
      "unusedSeqs:from:5:to:7" = { nextSequence := 5 } ∧
    ¬ (changeCache.processUnusedSequenceRange { nextSequence := 5 } 0
      "unusedSeqs:from:5:to:7").nextSequence =
        ({ nextSequence := 5 } : changeCache).nextSequence + 3 := by
  constructor
  · decide
  · decide

/-- Releasing the contiguous block starting at `nextSequence` turns each
sequence into a processed placeholder: the counter advances one per sequence
and nothing else changes. -/
theorem releaseAll_placeholders : ∀ (len : Nat) (c : changeCache) (now : Nat),
    c.logsDisabled = false → 0 < c.nextSequence → c.pendingLogs = [] →
    (∀ s ∈ List.range' c.nextSequence len, s ∉ c.receivedSeqs) →
    c.releaseAll now (List.range' c.nextSequence len) =
      { c with nextSequence := c.nextSequence + len,
               receivedSeqs := c.receivedSeqs ++ List.range' c.nextSequence len } := by
  intro len
  induction len with
  | zero =>
    intro c now _ _ _ _
    simp [changeCache.releaseAll]
  | succ k ih =>
    intro c now hdis hpos hpend hrecv
    rw [List.range'_succ]
    have hstep : (c.releaseUnusedSequence now c.nextSequence).1 =
        { c with nextSequence := c.nextSequence + 1,
                 receivedSeqs := c.receivedSeqs ++ [c.nextSequence] } := by
      unfold changeCache.releaseUnusedSequence
      rw [processEntry_eq_expected c now _ hdis
        (hrecv c.nextSequence (by simp only [List.mem_range'_1]; omega)) (Or.inl rfl)]
      dsimp only
      rw [addToCache_placeholder _ _ rfl]
      dsimp only
      rw [if_pos (le_refl _)]
      rw [addPendingLogs_nil _ now (by simp [hpend])]
    show (List.range' (c.nextSequence + 1) k).foldl
        (fun st seq => (st.releaseUnusedSequence now seq).1)
        (c.releaseUnusedSequence now c.nextSequence).1 = _
    rw [hstep]
    have ih2 := ih
      { c with
          nextSequence := c.nextSequence + 1,
          receivedSeqs := c.receivedSeqs ++ [c.nextSequence] }
      now hdis (by simp) (by simp [hpend]) ?hr
    case hr =>
      intro s hs
      simp only [List.mem_range'_1] at hs
      have hs2 : s ∈ List.range' c.nextSequence (k + 1) := by
        simp [List.mem_range'_1]
        omega
      have := hrecv s hs2
      simp only [List.mem_append, List.mem_singleton]
      push_neg
      exact ⟨this, by omega⟩
    rw [changeCache.releaseAll] at ih2
    rw [ih2]
    have harith : c.nextSequence + 1 + k = c.nextSequence + (k + 1) := by omega
    simp [harith, List.range'_succ]

/-- C4 (amended): an unused-range marker whose key splits on `:` into exactly
four components with parseable bounds `a`, `b` in the last two (the code's
format, e.g. `_sync:unusedSequences:<a>:<b>` — not the spec's
`unusedSeqs:from:<a>:to:<b>`), submitted when `nextSequence = a` with the
range not yet received, produces one placeholder per sequence in `[a,b]`:
`nextSequence` advances by `b-a+1`, `LastSequence()` increases by `b-a+1`,
and no channel cache or skipped list is affected. -/
theorem C4_unused_range (c : changeCache) (now a b : Nat) (docID : String)
    (p q ra rb : List Char)
    (hsplit : splitOnColon docID.toList = [p, q, ra, rb])
    (hra : parseUint64 ra = some a) (hrb : parseUint64 rb = some b)
    (hdis : c.logsDisabled = false) (hnext : c.nextSequence = a) (ha : 0 < a)
    (hab : a ≤ b) (hpend : c.pendingLogs = [])
    (hrecv : ∀ s ∈ List.range' a (b + 1 - a), s ∉ c.receivedSeqs) :
    (c.processUnusedSequenceRange now docID).nextSequence =
      c.nextSequence + (b - a + 1) ∧
    (c.processUnusedSequenceRange now docID).LastSequence =
      c.LastSequence + (b - a + 1) ∧
    (c.processUnusedSequenceRange now docID).channelCaches = c.channelCaches ∧
    (c.processUnusedSequenceRange now docID).skippedSeqs = c.skippedSeqs := by
  have heq : c.processUnusedSequenceRange now docID =
      c.releaseAll now (List.range' a (b + 1 - a)) := by
    unfold changeCache.processUnusedSequenceRange
    rw [hsplit]
    dsimp only
    rw [hra, hrb]
  have hrel := releaseAll_placeholders (b + 1 - a) c now hdis (by omega) hpend
    (by rw [hnext]; exact hrecv)
  rw [hnext] at hrel
  rw [heq, hrel]
  unfold changeCache.LastSequence
  dsimp only
  refine ⟨by omega, by omega, rfl, rfl⟩

/-- Witness for C4 at the key `"u:v:5:7"` from `nextSequence = 5`. -/
theorem C4_unused_range_witness :
    (changeCache.processUnusedSequenceRange { nextSequence := 5 } 0
      "u:v:5:7").nextSequence =
        ({ nextSequence := 5 } : changeCache).nextSequence + (7 - 5 + 1) ∧
    (changeCache.processUnusedSequenceRange { nextSequence := 5 } 0
      "u:v:5:7").LastSequence =
        ({ nextSequence := 5 } : changeCache).LastSequence + (7 - 5 + 1) ∧
    (changeCache.processUnusedSequenceRange { nextSequence := 5 } 0
      "u:v:5:7").channelCaches = ({ nextSequence := 5 } : changeCache).channelCaches ∧
    (changeCache.processUnusedSequenceRange { nextSequence := 5 } 0
      "u:v:5:7").skippedSeqs = ({ nextSequence := 5 } : changeCache).skippedSeqs :=
  C4_unused_range { nextSequence := 5 } 0 5 7 "u:v:5:7" ['u'] ['v'] ['5'] ['7']
    (by decide) (by decide) (by decide) rfl rfl (by decide) (by decide) rfl
    (by decide)

/-! ## Claim C3: pending overflow promotes sequences to the skipped list -/

theorem insertPending_length (e : LogEntry) (l : List LogEntry) :
    (insertPending e l).length = l.length + 1 := by
  induction l with
  | nil => rfl
  | cons x xs ih =>
    unfold insertPending
    by_cases h : e.Sequence < x.Sequence
    · simp [h]
    · simp [h, ih]

theorem insertPending_perm (e : LogEntry) (l : List LogEntry) :
    (insertPending e l).Perm (e :: l) := by
  induction l with
  | nil => simp [insertPending]
  | cons x xs ih =>
    unfold insertPending
    by_cases h : e.Sequence < x.Sequence
    · simp [h]
    · simp only [h, if_false]
      exact (ih.cons x).trans (List.Perm.swap e x xs)

/-- The heap ordering: entries sorted by sequence. -/
def PendingLe (a b : LogEntry) : Prop := a.Sequence ≤ b.Sequence

theorem insertPending_sorted {l : List LogEntry} (e : LogEntry)
    (h : l.Pairwise PendingLe) : (insertPending e l).Pairwise PendingLe := by
  induction l with
  | nil => simp [insertPending, PendingLe]
  | cons x xs ih =>
    unfold insertPending
    by_cases hlt : e.Sequence < x.Sequence
    · rw [if_pos hlt]
      refine List.Pairwise.cons ?_ h
      intro b hb
      rcases List.mem_cons.mp hb with hbx | hbxs
      · subst hbx; exact Nat.le_of_lt hlt
      · have hx := (List.pairwise_cons.mp h).1 b hbxs
        unfold PendingLe at *
        omega
    · rw [if_neg hlt]
      obtain ⟨hx, hxs⟩ := List.pairwise_cons.mp h
      refine List.Pairwise.cons ?_ (ih hxs)
      intro b hb
      have hb2 : b ∈ e :: xs := (insertPending_perm e xs).mem_iff.mp hb
      rcases List.mem_cons.mp hb2 with hbe | hbxs
      · subst hbe
        unfold PendingLe
        omega
      · exact hx b hbxs

theorem foldl_insertPending_perm (now : Nat) : ∀ (qs : List Nat) (P0 : List LogEntry),
    (qs.foldl (fun P q => insertPending { Sequence := q, TimeReceived := now } P) P0).Perm
      ((qs.map (fun q => { Sequence := q, TimeReceived := now })) ++ P0) := by
  intro qs
  induction qs with
  | nil => intro P0; simp
  | cons q rest ih =>
    intro P0
    rw [List.foldl_cons, List.map_cons]
    refine (ih _).trans ?_
    have h1 : (insertPending { Sequence := q, TimeReceived := now } P0).Perm
        (({ Sequence := q, TimeReceived := now } : LogEntry) :: P0) :=
      insertPending_perm _ _
    refine ((List.Perm.append_left _ h1).trans ?_)
    exact List.perm_middle

theorem foldl_insertPending_sorted (now : Nat) : ∀ (qs : List Nat) (P0 : List LogEntry),
    P0.Pairwise PendingLe →
    (qs.foldl (fun P q => insertPending { Sequence := q, TimeReceived := now } P) P0).Pairwise
      PendingLe := by
  intro qs
  induction qs with
  | nil => intro P0 h; exact h
  | cons q rest ih =>
    intro P0 h
    rw [List.foldl_cons]
    exact ih _ (insertPending_sorted _ h)

theorem foldl_insertPending_length (now : Nat) : ∀ (qs : List Nat) (P0 : List LogEntry),
    (qs.foldl (fun P q => insertPending { Sequence := q, TimeReceived := now } P) P0).length =
      P0.length + qs.length := by
  intro qs
  induction qs with
  | nil => intro P0; simp
  | cons q rest ih =>
    intro P0
    rw [List.foldl_cons, ih, insertPending_length]
    simp only [List.length_cons]
    omega

theorem foldl_max_ge_acc : ∀ (P : List LogEntry) (acc : Nat),
    acc ≤ P.foldl (fun m x => max m x.Sequence) acc := by
  intro P
  induction P with
  | nil => intro acc; exact le_refl _
  | cons y ys ih =>
    intro acc
    rw [List.foldl_cons]
    exact le_trans (le_max_left _ _) (ih _)

theorem foldl_max_ge : ∀ (P : List LogEntry) (acc : Nat) (e : LogEntry), e ∈ P →
    e.Sequence ≤ P.foldl (fun m x => max m x.Sequence) acc := by
  intro P
  induction P with
  | nil => intro acc e he; simp at he
  | cons x xs ih =>
    intro acc e he
    rw [List.foldl_cons]
    rcases List.mem_cons.mp he with h | h
    · subst h
      exact le_trans (le_max_right _ _) (foldl_max_ge_acc xs _)
    · exact ih _ e h

theorem pendingMaxSeq_ge {P : List LogEntry} {e : LogEntry} (he : e ∈ P) :
    e.Sequence ≤ pendingMaxSeq P :=
  foldl_max_ge P 0 e he

/-- Equation: `processEntry` on a future sequence without overflow just
buffers the entry. -/
theorem processEntry_eq_pending (c : changeCache) (now : Nat) (change : LogEntry)
    (hdis : c.logsDisabled = false) (hdup : change.Sequence ∉ c.receivedSeqs)
    (hgt : change.Sequence > c.nextSequence) (h0 : 0 < c.nextSequence)
    (hlen : (insertPending change c.pendingLogs).length ≤
      c.options.CachePendingSeqMaxNum) :
    c.processEntry now change =
      ({ c with
          receivedSeqs := c.receivedSeqs ++ [change.Sequence],
          pendingLogs := insertPending change c.pendingLogs }, []) := by
  unfold changeCache.processEntry
  dsimp only
  rw [if_neg (by simp [hdis]), if_neg hdup,
    if_neg (by rintro (h | h) <;> omega), if_pos hgt,
    if_neg (by omega)]

/-- Equation: `processEntry` on a future sequence that overflows the pending
heap buffers the entry and then drains. -/
theorem processEntry_eq_overflow (c : changeCache) (now : Nat) (change : LogEntry)
    (hdis : c.logsDisabled = false) (hdup : change.Sequence ∉ c.receivedSeqs)
    (hgt : change.Sequence > c.nextSequence) (h0 : 0 < c.nextSequence)
    (hlen : (insertPending change c.pendingLogs).length >
      c.options.CachePendingSeqMaxNum) :
    c.processEntry now change =
      changeCache._addPendingLogs
        { c with
            receivedSeqs := c.receivedSeqs ++ [change.Sequence],
            pendingLogs := insertPending change c.pendingLogs } now := by
  unfold changeCache.processEntry
  dsimp only
  rw [if_neg (by simp [hdis]), if_neg hdup,
    if_neg (by rintro (h | h) <;> omega), if_pos hgt,
    if_pos hlen]

/-- Phase 1: submitting future sequences that never overflow the heap only
buffers them. -/
theorem releaseAll_pending_phase : ∀ (seqs : List Nat) (c : changeCache) (now : Nat),
    c.logsDisabled = false → 0 < c.nextSequence →
    (∀ q ∈ seqs, q ∉ c.receivedSeqs) → (∀ q ∈ seqs, c.nextSequence < q) →
    seqs.Nodup →
    c.pendingLogs.length + seqs.length ≤ c.options.CachePendingSeqMaxNum →
    c.releaseAll now seqs =
      { c with
          pendingLogs := seqs.foldl
            (fun P q => insertPending { Sequence := q, TimeReceived := now } P)
            c.pendingLogs,
          receivedSeqs := c.receivedSeqs ++ seqs } := by
  intro seqs
  induction seqs with
  | nil =>
    intro c now _ _ _ _ _ _
    simp [changeCache.releaseAll]
  | cons q rest ih =>
    intro c now hdis h0 hrecv hgt hnd hlen
    show (rest.foldl (fun st s => (st.releaseUnusedSequence now s).1)
      (c.releaseUnusedSequence now q).1) = _
    have hstep : (c.releaseUnusedSequence now q).1 =
        { c with
            receivedSeqs := c.receivedSeqs ++ [q],
            pendingLogs := insertPending { Sequence := q, TimeReceived := now }
              c.pendingLogs } := by
      unfold changeCache.releaseUnusedSequence
      rw [processEntry_eq_pending c now _ hdis (hrecv q (by simp)) (hgt q (by simp)) h0
        (by rw [insertPending_length]; simp at hlen; omega)]
    rw [hstep]
    have ih2 := ih
      { c with
          receivedSeqs := c.receivedSeqs ++ [q],
          pendingLogs := insertPending { Sequence := q, TimeReceived := now }
            c.pendingLogs }
      now hdis h0 ?hr ?hg ?hn ?hl
    case hr =>
      intro s hs
      have hs2 := hrecv s (by simp [hs])
      have hneq : s ≠ q := by
        intro heq
        subst heq
        exact (List.nodup_cons.mp hnd).1 hs
      simp only [List.mem_append, List.mem_singleton]
      push_neg
      exact ⟨hs2, hneq⟩
    case hg => intro s hs; exact hgt s (by simp [hs])
    case hn => exact (List.nodup_cons.mp hnd).2
    case hl =>
      show (insertPending { Sequence := q, TimeReceived := now } c.pendingLogs).length +
        rest.length ≤ c.options.CachePendingSeqMaxNum
      rw [insertPending_length]
      simp only [List.length_cons] at hlen
      omega
    rw [changeCache.releaseAll] at ih2
    rw [ih2]
    simp

/-- The skip phase of the drain loop: while the heap head is `d` beyond
`nextSequence` and the heap is over capacity, the loop promotes
`nextSequence, …, nextSequence+d-1` to the skipped list. -/
theorem drain_skip_phase : ∀ (d fuel now : Nat) (c : changeCache) (e : LogEntry)
    (rest : List LogEntry),
    c.pendingLogs = e :: rest → e.Sequence = c.nextSequence + d →
    rest.length + 1 > c.options.CachePendingSeqMaxNum →
    (∀ x ∈ c.skippedSeqs, x.seq < c.nextSequence) →
    changeCache._addPendingLogsFuel now (d + fuel) c =
      changeCache._addPendingLogsFuel now fuel
        { c with
            nextSequence := c.nextSequence + d,
            skippedSeqs := c.skippedSeqs ++
              (List.range' c.nextSequence d).map
                (fun s => { seq := s, timeAdded := now }) } := by
  intro d
  induction d with
  | zero =>
    intro fuel now c e rest hp he hlen hsk
    have h0 : (0 : Nat) + fuel = fuel := by omega
    rw [h0]
    congr 1
    simp
  | succ dd ihd =>
    intro fuel now c e rest hp he hlen hsk
    have hpush : pushSkipped c.skippedSeqs c.nextSequence now =
        c.skippedSeqs ++ [{ seq := c.nextSequence, timeAdded := now }] := by
      unfold pushSkipped SkippedSequenceList.Push
      cases hl : c.skippedSeqs.getLast? with
      | none => rfl
      | some last =>
        have hlast : last.seq < c.nextSequence := by
          apply hsk
          obtain ⟨hne, heq⟩ := List.mem_getLast?_eq_getLast (Option.mem_def.mpr hl)
          rw [heq]
          exact List.getLast_mem hne
        dsimp only
        rw [if_pos hlast]
    have hstep : changeCache._addPendingLogsFuel now (dd + 1 + fuel) c =
        changeCache._addPendingLogsFuel now (dd + fuel)
          { c with
              skippedSeqs := c.skippedSeqs ++ [{ seq := c.nextSequence, timeAdded := now }],
              nextSequence := c.nextSequence + 1 } := by
      have hfuel : dd + 1 + fuel = (dd + fuel) + 1 := by omega
      rw [hfuel, changeCache._addPendingLogsFuel, hp]
      dsimp only
      rw [if_neg (by omega), if_pos (Or.inl hlen), hpush]
    rw [hstep]
    have ihd2 := ihd fuel now
      { c with
          skippedSeqs := c.skippedSeqs ++ [{ seq := c.nextSequence, timeAdded := now }],
          nextSequence := c.nextSequence + 1 }
      e rest (by simp [hp]) (by simp; omega) (by simpa using hlen) ?hs
    case hs =>
      intro x hx
      simp only [List.mem_append, List.mem_singleton] at hx
      rcases hx with h | h
      · have := hsk x h
        simp
        omega
      · subst h
        simp
    rw [ihd2]
    congr 1
    have h1 : c.nextSequence + 1 + dd = c.nextSequence + (dd + 1) := by omega
    rw [List.range'_succ]
    simp [h1]

/-- The pop phase: once the heap is back within capacity and every buffered
entry is fresh, the drain loop never touches the skipped list. -/
theorem drain_no_skip (now : Nat) : ∀ (fuel : Nat) (c : changeCache),
    c.pendingLogs.length ≤ c.options.CachePendingSeqMaxNum →
    (∀ e ∈ c.pendingLogs, now - e.TimeReceived < c.options.CachePendingSeqMaxWait) →
    (changeCache._addPendingLogsFuel now fuel c).1.skippedSeqs = c.skippedSeqs := by
  intro fuel
  induction fuel with
  | zero => intro c _ _; rfl
  | succ f ih =>
    intro c hlen htime
    rw [changeCache._addPendingLogsFuel]
    cases hp : c.pendingLogs with
    | nil => rfl
    | cons e rest =>
      dsimp only
      by_cases h1 : e.Sequence = c.nextSequence
      · rw [if_pos h1]
        dsimp only
        have hproj := addToCache_proj { c with pendingLogs := rest } e
        have hrec := ih (changeCache._addToCache { c with pendingLogs := rest } e).1
          ?hl ?ht
        case hl =>
          rw [hproj.2.1]
          rw [hproj.2.2.2.2.1]
          show rest.length ≤ c.options.CachePendingSeqMaxNum
          rw [hp] at hlen
          simp at hlen
          omega
        case ht =>
          intro x hx
          rw [hproj.2.1] at hx
          rw [hproj.2.2.2.2.1]
          exact htime x (by rw [hp]; exact List.mem_cons_of_mem _ hx)
        rw [hrec, hproj.2.2.2.1]
      · rw [if_neg h1]
        have hcond : ¬ (rest.length + 1 > c.options.CachePendingSeqMaxNum ∨
            now - e.TimeReceived ≥ c.options.CachePendingSeqMaxWait) := by
          push_neg
          constructor
          · rw [hp] at hlen
            simp at hlen
            omega
          · have := htime e (by rw [hp]; simp)
            omega
        rw [if_neg hcond]

/-- One pop of the heap head followed by a drain that stays within capacity:
the skipped list is untouched. -/
theorem drain_pop_then_stop (now : Nat) (c3 : changeCache) (fuel : Nat) (e0 : LogEntry)
    (Qrest : List LogEntry)
    (hp : c3.pendingLogs = e0 :: Qrest)
    (hnext : e0.Sequence = c3.nextSequence)
    (hcap : Qrest.length ≤ c3.options.CachePendingSeqMaxNum)
    (htime : ∀ x ∈ Qrest, now - x.TimeReceived < c3.options.CachePendingSeqMaxWait) :
    (changeCache._addPendingLogsFuel now (fuel + 1) c3).1.skippedSeqs =
      c3.skippedSeqs := by
  rw [changeCache._addPendingLogsFuel, hp]
  dsimp only
  rw [if_pos hnext]
  dsimp only
  have hproj := addToCache_proj { c3 with pendingLogs := Qrest } e0
  have hns := drain_no_skip now fuel
    (changeCache._addToCache { c3 with pendingLogs := Qrest } e0).1 ?hl ?ht
  case hl =>
    rw [hproj.2.1, hproj.2.2.2.2.1]
    exact hcap
  case ht =>
    intro x hx
    rw [hproj.2.1] at hx
    rw [hproj.2.2.2.2.1]
    exact htime x hx
  rw [hns, hproj.2.2.2.1]

/-- The full drain after an overflow with an empty skipped list: exactly the
gap `[nextSequence, head)` is promoted to the skipped list. -/
theorem drain_overflow_count (c2 : changeCache) (now d : Nat) (e0 : LogEntry)
    (Qrest : List LogEntry)
    (hp : c2.pendingLogs = e0 :: Qrest)
    (hsk : c2.skippedSeqs = [])
    (hd : e0.Sequence = c2.nextSequence + d)
    (hcap : Qrest.length + 1 > c2.options.CachePendingSeqMaxNum)
    (hcap2 : Qrest.length ≤ c2.options.CachePendingSeqMaxNum)
    (htime : ∀ x ∈ c2.pendingLogs, x.TimeReceived = now)
    (hwait : 0 < c2.options.CachePendingSeqMaxWait) :
    (c2._addPendingLogs now).1.skippedSeqs =
      (List.range' c2.nextSequence d).map
        (fun s => { seq := s, timeAdded := now }) := by
  unfold changeCache._addPendingLogs
  rw [hp]
  have hd2 : d ≤ pendingMaxSeq (e0 :: Qrest) := by
    have h1 := pendingMaxSeq_ge (List.mem_cons_self e0 Qrest)
    omega
  have hfuel : (e0 :: Qrest).length + pendingMaxSeq (e0 :: Qrest) + 1 =
      d + ((e0 :: Qrest).length + pendingMaxSeq (e0 :: Qrest) + 1 - d) := by
    simp only [List.length_cons]
    omega
  rw [hfuel, drain_skip_phase d _ now c2 e0 Qrest hp hd hcap (by rw [hsk]; simp)]
  have hf2 : (e0 :: Qrest).length + pendingMaxSeq (e0 :: Qrest) + 1 - d =
      ((e0 :: Qrest).length + pendingMaxSeq (e0 :: Qrest) + 1 - d - 1) + 1 := by
    simp only [List.length_cons]
    omega
  rw [hf2]
  have hrest := drain_pop_then_stop now
    { c2 with
        nextSequence := c2.nextSequence + d,
        skippedSeqs := c2.skippedSeqs ++
          (List.range' c2.nextSequence d).map (fun s => { seq := s, timeAdded := now }) }
    ((e0 :: Qrest).length + pendingMaxSeq (e0 :: Qrest) + 1 - d - 1) e0 Qrest
    hp hd hcap2 ?ht
  case ht =>
    intro x hx
    have hx2 := htime x (by rw [hp]; exact List.mem_cons_of_mem _ hx)
    show now - x.TimeReceived < c2.options.CachePendingSeqMaxWait
    rw [hx2]
    omega
  rw [hrest]
  dsimp only
  rw [hsk]
  simp

/-- C3 (counterexample): with `maxPendingNum = 1`, submitting the
`maxPendingNum + 1 = 2` non-contiguous sequences `3, 5` (both greater than
`nextSequence = 1`) promotes *two* sequences (1 and 2) to the skipped list,
not exactly one. -/
theorem C3_counterexample :
    (changeCache.releaseAll
      { nextSequence := 1,
        options := { CachePendingSeqMaxNum := 1, CachePendingSeqMaxWait := 100 } }
      0 [3, 5]).skippedSeqs.length = 2 ∧ ¬ (2 : Nat) = 1 := by
  constructor
  · decide
  · decide

/-- C3 (amended): submitting `maxPendingNum + 1` distinct sequences, all
greater than `nextSequence`, through `processEntry` promotes exactly
`m - nextSequence` sequences to the skipped list via the forced-progress
path, where `m` is the smallest submitted sequence — so exactly one precisely
when `m = nextSequence + 1`. -/
theorem C3_pending_overflow (c : changeCache) (now m : Nat) (seqs : List Nat)
    (hdis : c.logsDisabled = false)
    (h0 : 0 < c.nextSequence)
    (hpend : c.pendingLogs = [])
    (hskint : c.skippedSeqs = [])
    (hrecv : ∀ q ∈ seqs, q ∉ c.receivedSeqs)
    (hgt : ∀ q ∈ seqs, c.nextSequence < q)
    (hnd : seqs.Nodup)
    (hlen : seqs.length = c.options.CachePendingSeqMaxNum + 1)
    (hwait : 0 < c.options.CachePendingSeqMaxWait)
    (hm : m ∈ seqs) (hmin : ∀ q ∈ seqs, m ≤ q) :
    (c.releaseAll now seqs).skippedSeqs.length = m - c.nextSequence ∧
    ((c.releaseAll now seqs).skippedSeqs.length = 1 ↔ m = c.nextSequence + 1) := by
  rcases List.eq_nil_or_concat seqs with hnil | ⟨ys, z, hcat⟩
  · rw [hnil] at hlen
    simp at hlen
  rw [List.concat_eq_append] at hcat
  subst hcat
  have hklen : ys.length = c.options.CachePendingSeqMaxNum := by
    rw [List.length_append] at hlen
    simp at hlen
    omega
  have hnodup := List.nodup_append.mp hnd
  have hzys : z ∉ ys := fun hzm => hnodup.2.2 hzm (by simp)
  have hphase1 := releaseAll_pending_phase ys c now hdis h0
    (fun q hq => hrecv q (by simp [hq])) (fun q hq => hgt q (by simp [hq]))
    hnodup.1 (by rw [hpend, hklen]; simp)
  rw [hpend] at hphase1
  have hsplit2 : c.releaseAll now (ys ++ [z]) =
      ((c.releaseAll now ys).releaseUnusedSequence now z).1 := by
    unfold changeCache.releaseAll
    rw [List.foldl_append]
    rfl
  set P : List LogEntry :=
    ys.foldl (fun P q => insertPending { Sequence := q, TimeReceived := now } P) []
    with hPdef
  have hPlen : P.length = ys.length := by
    rw [hPdef, foldl_insertPending_length]
    simp
  have hPperm : P.Perm (ys.map (fun q => { Sequence := q, TimeReceived := now })) := by
    rw [hPdef]
    have := foldl_insertPending_perm now ys []
    simpa using this
  have hPsorted : P.Pairwise PendingLe := by
    rw [hPdef]
    exact foldl_insertPending_sorted now ys [] (by simp)
  have hQperm : (insertPending { Sequence := z, TimeReceived := now } P).Perm
      ((z :: ys).map (fun q => { Sequence := q, TimeReceived := now })) := by
    rw [List.map_cons]
    exact (insertPending_perm _ _).trans (hPperm.cons _)
  have hQsorted := insertPending_sorted { Sequence := z, TimeReceived := now } hPsorted
  have hQlen : (insertPending { Sequence := z, TimeReceived := now } P).length =
      c.options.CachePendingSeqMaxNum + 1 := by
    rw [insertPending_length, hPlen, hklen]
  have hQmem : ∀ e ∈ insertPending { Sequence := z, TimeReceived := now } P,
      e.TimeReceived = now ∧ e.Sequence ∈ z :: ys := by
    intro e he
    have hmem := hQperm.mem_iff.mp he
    obtain ⟨q, hq, heq⟩ := List.mem_map.mp hmem
    subst heq
    exact ⟨rfl, by simpa using hq⟩
  cases hQ : insertPending { Sequence := z, TimeReceived := now } P with
  | nil =>
    rw [hQ] at hQlen
    simp at hQlen
  | cons e0 Qrest =>
  have he0mem : e0 ∈ insertPending { Sequence := z, TimeReceived := now } P := by
    rw [hQ]
    simp
  have hmzys : m ∈ z :: ys := by
    rcases List.mem_append.mp hm with h | h
    · exact List.mem_cons_of_mem _ h
    · simp at h
      simp [h]
  have hminz : ∀ q ∈ z :: ys, m ≤ q := by
    intro q hq
    apply hmin
    rcases List.mem_cons.mp hq with h | h
    · simp [h]
    · simp [h]
  have he0seq : e0.Sequence = m := by
    have h1 : m ≤ e0.Sequence := hminz _ (hQmem e0 he0mem).2
    have hEm : ({ Sequence := m, TimeReceived := now } : LogEntry) ∈
        insertPending { Sequence := z, TimeReceived := now } P := by
      apply hQperm.mem_iff.mpr
      exact List.mem_map.mpr ⟨m, hmzys, rfl⟩
    rw [hQ] at hEm
    rcases List.mem_cons.mp hEm with h | h
    · rw [← h]
    · have hpair := List.pairwise_cons.mp (hQ ▸ hQsorted)
      have h2 := hpair.1 _ h
      unfold PendingLe at h2
      simp at h2
      omega
  have hmgt : c.nextSequence < m := hgt m hm
  have hkey : (c.releaseAll now (ys ++ [z])).skippedSeqs =
      (List.range' c.nextSequence (m - c.nextSequence)).map
        (fun s => { seq := s, timeAdded := now }) := by
    rw [hsplit2, hphase1, changeCache.releaseUnusedSequence]
    rw [processEntry_eq_overflow
      { c with pendingLogs := P, receivedSeqs := c.receivedSeqs ++ ys } now
      { Sequence := z, TimeReceived := now } hdis ?hdup (hgt z (by simp)) h0 ?hov]
    case hdup =>
      show z ∉ c.receivedSeqs ++ ys
      simp only [List.mem_append]
      push_neg
      exact ⟨hrecv z (by simp), hzys⟩
    case hov =>
      show (insertPending { Sequence := z, TimeReceived := now } P).length >
        c.options.CachePendingSeqMaxNum
      rw [hQlen]
      omega
    have hcount := drain_overflow_count
      { c with
          pendingLogs := insertPending { Sequence := z, TimeReceived := now } P,
          receivedSeqs := c.receivedSeqs ++ ys ++ [z] }
      now (m - c.nextSequence) e0 Qrest hQ hskint (by dsimp only; rw [he0seq]; omega)
      ?hcap ?hcap2 ?htm hwait
    case hcap =>
      show Qrest.length + 1 > c.options.CachePendingSeqMaxNum
      have : (e0 :: Qrest).length = c.options.CachePendingSeqMaxNum + 1 := by
        rw [← hQ, hQlen]
      simp at this
      omega
    case hcap2 =>
      show Qrest.length ≤ c.options.CachePendingSeqMaxNum
      have : (e0 :: Qrest).length = c.options.CachePendingSeqMaxNum + 1 := by
        rw [← hQ, hQlen]
      simp at this
      omega
    case htm =>
      intro x hx
      exact (hQmem x hx).1
    exact hcount
  refine ⟨by rw [hkey]; simp, ?_⟩
  rw [hkey]
  simp only [List.length_map, List.length_range']
  omega

/-- Witness for C3: `maxPendingNum = 1`, submissions `2, 9` from
`nextSequence = 1`; the smallest is `2 = nextSequence + 1`, so exactly one
sequence is promoted. -/
theorem C3_pending_overflow_witness :
    (changeCache.releaseAll
      { nextSequence := 1,
        options := { CachePendingSeqMaxNum := 1, CachePendingSeqMaxWait := 100 } }
      0 [2, 9]).skippedSeqs.length = 2 - 1 ∧
    ((changeCache.releaseAll
      { nextSequence := 1,
        options := { CachePendingSeqMaxNum := 1, CachePendingSeqMaxWait := 100 } }
      0 [2, 9]).skippedSeqs.length = 1 ↔ (2 : Nat) = 1 + 1) :=
  C3_pending_overflow
    { nextSequence := 1,
      options := { CachePendingSeqMaxNum := 1, CachePendingSeqMaxWait := 100 } }
    0 2 [2, 9] rfl (by decide) rfl rfl (by decide) (by decide) (by decide) rfl
    (by decide) (by decide) (by decide)

end SyncGateway
